import Mathlib

/- The Batteries definitions of rational arithmetic are marked
`@[irreducible]`, which stops `decide` from evaluating concrete
triangulations.  Sections proving concrete instances below restore the
default reducibility locally so the kernel can evaluate them. -/
set_option allowUnsafeReducibility true

/-!
# Verification of the Delaunay triangulation core

Shallow embedding of the repository's geometric core: `Point`, `Edge`,
`Triangle` (circumcircle math), the Bowyer–Watson triangulation engine,
and the `Quadtree` spatial index.  Numbers are modelled as exact
rationals (the idealized real-arithmetic semantics of the source's
floating-point code).  All definitions are executable so that claims can
be evaluated on concrete inputs.
-/

namespace Delaunay

/-- `Point`: immutable 2D value `{x, y}` (src/src/core/Point.ts). -/
structure Point where
  x : ℚ
  y : ℚ
deriving DecidableEq, Repr

namespace Point

/-- `Point.sub` (src/src/core/Point.ts): pointwise difference. -/
def sub (p q : Point) : Point := ⟨p.x - q.x, p.y - q.y⟩

/-- `Point.add` (src/src/core/Point.ts): pointwise sum. -/
def add (p q : Point) : Point := ⟨p.x + q.x, p.y + q.y⟩

/-- `Point.distanceToSquared` (src/src/core/Point.ts):
`dx*dx + dy*dy` with `dx = x - point.x`, `dy = y - point.y`. -/
def distanceToSquared (p q : Point) : ℚ :=
  (p.x - q.x) * (p.x - q.x) + (p.y - q.y) * (p.y - q.y)

/-- `Point.equals` (src/src/core/Point.ts): exact component comparison. -/
def equals (p q : Point) : Bool :=
  decide (p.x = q.x) && decide (p.y = q.y)

end Point

/-- `Math.min` on exact rationals. -/
def qmin (a b : ℚ) : ℚ := if a ≤ b then a else b

/-- `Math.max` on exact rationals. -/
def qmax (a b : ℚ) : ℚ := if b ≤ a then a else b

theorem qmin_le_left (a b : ℚ) : qmin a b ≤ a := by
  unfold qmin; split <;> linarith

theorem qmin_le_right (a b : ℚ) : qmin a b ≤ b := by
  unfold qmin; split <;> linarith

theorem le_qmax_left (a b : ℚ) : a ≤ qmax a b := by
  unfold qmax; split <;> linarith

theorem le_qmax_right (a b : ℚ) : b ≤ qmax a b := by
  unfold qmax; split <;> linarith

/-- `Edge`: pair of points (src/src/core/Edge.mjs / .ts). -/
structure Edge where
  p1 : Point
  p2 : Point
deriving DecidableEq, Repr

namespace Edge

/-- `Edge.equals` (src/src/core/Edge.ts): order-independent endpoint
comparison. -/
def equals (e f : Edge) : Bool :=
  (e.p1.equals f.p1 && e.p2.equals f.p2) ||
  (e.p1.equals f.p2 && e.p2.equals f.p1)

end Edge

/-- `Triangle`: ordered vertex triple (src/unnamed/part_007).  The
source's lazily-cached `_circumcenter` / `_circumradiusSquared` fields
are an optimization with no observable effect (vertices are never
mutated by the engine), so the derived quantities are modelled as pure
functions. -/
structure Triangle where
  a : Point
  b : Point
  c : Point
deriving DecidableEq, Repr

namespace Triangle

/-- `Triangle.getVertices` (src/unnamed/part_007). -/
def getVertices (t : Triangle) : List Point := [t.a, t.b, t.c]

/-- `Triangle.getEdges` (src/unnamed/part_007): `(a,b),(b,c),(c,a)`. -/
def getEdges (t : Triangle) : List Edge :=
  [⟨t.a, t.b⟩, ⟨t.b, t.c⟩, ⟨t.c, t.a⟩]

/-- `Triangle.sharesVertexWith` (src/unnamed/part_007): some vertex of
`t` equals (exactly) some vertex of `u`. -/
def sharesVertexWith (t u : Triangle) : Bool :=
  t.getVertices.any fun v1 => u.getVertices.any fun v2 => v1.equals v2

/-- `Triangle.hasEdge` (src/unnamed/part_007). -/
def hasEdge (t : Triangle) (e : Edge) : Bool :=
  t.getEdges.any fun e0 => e0.equals e

/-- The determinant `d` of the circumcenter formula
(src/unnamed/part_007, `getCircumcenter`). -/
def circumDet (t : Triangle) : ℚ :=
  2 * (t.a.x * (t.b.y - t.c.y) +
       t.b.x * (t.c.y - t.a.y) +
       t.c.x * (t.a.y - t.b.y))

/-- `Triangle.getCircumcenter` (src/unnamed/part_007): the standard
2x2-determinant circumcenter formula.  (Over ℚ, `1/0 = 0`; the source
produces non-finite floats for collinear vertices, and every claim
about the circumcenter assumes non-collinearity.) -/
def getCircumcenter (t : Triangle) : Point :=
  let d := t.circumDet
  let ax2 := t.a.x * t.a.x + t.a.y * t.a.y
  let bx2 := t.b.x * t.b.x + t.b.y * t.b.y
  let cx2 := t.c.x * t.c.x + t.c.y * t.c.y
  ⟨(1 / d) * (ax2 * (t.b.y - t.c.y) + bx2 * (t.c.y - t.a.y) + cx2 * (t.a.y - t.b.y)),
   (1 / d) * (ax2 * (t.c.x - t.b.x) + bx2 * (t.a.x - t.c.x) + cx2 * (t.b.x - t.a.x))⟩

/-- `Triangle.getCircumradiusSquared` (src/unnamed/part_007): squared
distance from the circumcenter to vertex `a`. -/
def getCircumradiusSquared (t : Triangle) : ℚ :=
  t.getCircumcenter.distanceToSquared t.a

/-- `Triangle.containsPointInCircumcircle` (src/unnamed/part_007):
strict `<` on squared distance vs squared radius. -/
def containsPointInCircumcircle (t : Triangle) (p : Point) : Bool :=
  decide (p.distanceToSquared t.getCircumcenter < t.getCircumradiusSquared)

/-- `Triangle.getArea` (src/unnamed/part_007): absolute shoelace area. -/
def getArea (t : Triangle) : ℚ :=
  |(t.a.x * (t.b.y - t.c.y) +
    t.b.x * (t.c.y - t.a.y) +
    t.c.x * (t.a.y - t.b.y)) / 2|

end Triangle

namespace BowyerWatson

/-- `BowyerWatson.findBadTriangles` (src/src/algorithms/BowyerWatson.ts):
all triangles whose circumcircle strictly contains the point. -/
def findBadTriangles (triangulation : List Triangle) (point : Point) : List Triangle :=
  triangulation.filter fun triangle => triangle.containsPointInCircumcircle point

/-- `BowyerWatson.findBoundaryPolygon` (src/src/algorithms/BowyerWatson.ts):
edges of bad triangles not shared with a *different* bad triangle.  The
source's `other !== triangle` reference comparison is modelled by
positional index, which distinguishes structurally equal duplicates the
same way object identity does. -/
def findBoundaryPolygon (triangles : List Triangle) : List Edge :=
  triangles.enum.flatMap fun it =>
    it.2.getEdges.filter fun edge =>
      !(triangles.enum.any fun ot => ot.1 ≠ it.1 && ot.2.hasEdge edge)

/-- `BowyerWatson.removeTriangles` (src/src/algorithms/BowyerWatson.ts):
remove each listed triangle's first occurrence (`indexOf` + `splice`). -/
def removeTriangles (triangulation toRemove : List Triangle) : List Triangle :=
  toRemove.foldl (fun acc t => acc.erase t) triangulation

/-- `BowyerWatson.retriangulateHole` (src/src/algorithms/BowyerWatson.ts):
append a triangle `(p1, p2, point)` for every boundary edge. -/
def retriangulateHole (triangulation : List Triangle) (polygon : List Edge)
    (point : Point) : List Triangle :=
  triangulation ++ polygon.map fun edge => Triangle.mk edge.p1 edge.p2 point

/-- `BowyerWatson.addPoint` (src/src/algorithms/BowyerWatson.ts). -/
def addPoint (triangulation : List Triangle) (point : Point) : List Triangle :=
  let badTriangles := findBadTriangles triangulation point
  let polygon := findBoundaryPolygon badTriangles
  let removed := removeTriangles triangulation badTriangles
  retriangulateHole removed polygon point

/-- `BowyerWatson.removeSuperTriangleVertices`
(src/src/algorithms/BowyerWatson.ts): the backwards `while`/`splice`
loop removes exactly the triangles sharing a vertex with the super
triangle, i.e. it filters them out. -/
def removeSuperTriangleVertices (triangulation : List Triangle)
    (superTriangle : Triangle) : List Triangle :=
  triangulation.filter fun t => !(t.sharesVertexWith superTriangle)

/-- `BowyerWatson.triangulate(points, superTriangle)`
(src/src/algorithms/BowyerWatson.ts): seed with the super triangle,
insert each point in order, then strip super-triangle-adjacent
triangles. -/
def triangulate (points : List Point) (superTriangle : Triangle) : List Triangle :=
  removeSuperTriangleVertices (points.foldl addPoint [superTriangle]) superTriangle

/-- `BowyerWatson.createSuperTriangle(points, margin)`
(src/src/algorithms/BowyerWatson.ts, margin branch): throws on an empty
point list, otherwise builds a triangle from the bounding box scaled by
`margin`. -/
def createSuperTriangle (points : List Point) (margin : ℚ) :
    Except String Triangle :=
  match points with
  | [] => .error "Cannot create super triangle for empty point set"
  | p0 :: _ =>
    let minX := points.foldl (fun acc p => qmin acc p.x) p0.x
    let maxX := points.foldl (fun acc p => qmax acc p.x) p0.x
    let minY := points.foldl (fun acc p => qmin acc p.y) p0.y
    let maxY := points.foldl (fun acc p => qmax acc p.y) p0.y
    let boxWidth := maxX - minX
    let boxHeight := maxY - minY
    let centerX := (minX + maxX) / 2
    let centerY := (minY + maxY) / 2
    let size := qmax boxWidth boxHeight * margin
    .ok ⟨⟨centerX - size * 2, centerY + size⟩,
         ⟨centerX + size * 2, centerY + size⟩,
         ⟨centerX, centerY - size * 2⟩⟩

end BowyerWatson

/-- `Bounds`: rectangle for quadtree regions (src/src/spatial/Quadtree.ts). -/
structure Bounds where
  x : ℚ
  y : ℚ
  width : ℚ
  height : ℚ
deriving DecidableEq, Repr

namespace Bounds

/-- `Bounds.contains` (src/src/spatial/Quadtree.ts): half-open on the
right and bottom (`>=` on the low edges, `<` on the high edges). -/
def contains (b : Bounds) (point : Point) : Bool :=
  decide (b.x ≤ point.x) && decide (point.x < b.x + b.width) &&
  decide (b.y ≤ point.y) && decide (point.y < b.y + b.height)

/-- The squared distance from `(cx, cy)` to the closest point of the
closed rectangle, as computed by `Bounds.intersectsCircle` and
`Quadtree.distToBounds` (src/src/spatial/Quadtree.ts). -/
def closestDistSquared (b : Bounds) (cx cy : ℚ) : ℚ :=
  let closestX := qmax b.x (qmin cx (b.x + b.width))
  let closestY := qmax b.y (qmin cy (b.y + b.height))
  (cx - closestX) * (cx - closestX) + (cy - closestY) * (cy - closestY)

/-- `Bounds.intersectsCircle` (src/src/spatial/Quadtree.ts) with the
circle given by its *squared* radius: `distSquared <= radius * radius`.
The source's `findNearest` calls `intersectsCircle(x, y, √d)`, whose
comparison `distSquared <= (√d)²` is exactly `distSquared <= d`. -/
def intersectsCircleSq (b : Bounds) (cx cy r2 : ℚ) : Bool :=
  decide (b.closestDistSquared cx cy ≤ r2)

/-- `Bounds.intersectsCircle` (src/src/spatial/Quadtree.ts). -/
def intersectsCircle (b : Bounds) (cx cy radius : ℚ) : Bool :=
  b.intersectsCircleSq cx cy (radius * radius)

end Bounds

/-- `Quadtree` (src/src/spatial/Quadtree.ts): each node stores its
bounds, its local points, and — once `subdivide` has run (`divided`) —
four children.  `leaf` is an undivided node, `node` a divided one.
The `capacity`, `maxDepth` and `depth` fields are constants fixed at
construction (`depth + 1` for children, same `capacity`/`maxDepth`),
so they are threaded as function arguments rather than stored. -/
inductive Quadtree where
  | leaf (bounds : Bounds) (points : List Point)
  | node (bounds : Bounds) (points : List Point) (nw ne sw se : Quadtree)
deriving DecidableEq, Repr

namespace Quadtree

/-- The `bounds` field of a node. -/
def bounds : Quadtree → Bounds
  | leaf b _ => b
  | node b _ _ _ _ _ => b

/-- `Quadtree.subdivide` (src/src/spatial/Quadtree.ts): the four
quadrant bounds NW, NE, SW, SE of a node's bounds. -/
def subdivideBounds (b : Bounds) : Bounds × Bounds × Bounds × Bounds :=
  let halfWidth := b.width / 2
  let halfHeight := b.height / 2
  (⟨b.x, b.y, halfWidth, halfHeight⟩,
   ⟨b.x + halfWidth, b.y, halfWidth, halfHeight⟩,
   ⟨b.x, b.y + halfHeight, halfWidth, halfHeight⟩,
   ⟨b.x + halfWidth, b.y + halfHeight, halfWidth, halfHeight⟩)

/-- The child-delegation chain of `Quadtree.insert`
(src/src/spatial/Quadtree.ts lines 143-150): take the first successful
child insert result, falling back to local storage ("shouldn't reach
here" branch).  `r1`–`r4` are the results of inserting into the NW, NE,
SW, SE children; a failed child insert leaves that child unmutated
(`insert` returns the unchanged tree on rejection), so the later
branches keep the original earlier children. -/
def tryChildren (point : Point) (b : Bounds) (pts : List Point)
    (nw ne sw se : Quadtree) (r1 r2 r3 r4 : Bool × Quadtree) : Bool × Quadtree :=
  if r1.1 then (true, node b pts r1.2 ne sw se)
  else if r2.1 then (true, node b pts nw r2.2 sw se)
  else if r3.1 then (true, node b pts nw ne r3.2 se)
  else if r4.1 then (true, node b pts nw ne sw r4.2)
  else (true, node b (pts ++ [point]) nw ne sw se)

/-- `Quadtree.insert` (src/src/spatial/Quadtree.ts): reject a point
outside the bounds; store it locally when under capacity or at max
depth; otherwise subdivide (if not yet divided) and delegate to the
first accepting child via `tryChildren`. -/
def insert (capacity maxDepth depth : ℕ) (t : Quadtree) (point : Point) :
    Bool × Quadtree :=
  match t with
  | leaf b pts =>
    if b.contains point then
      if _h : pts.length < capacity ∨ maxDepth ≤ depth then
        (true, leaf b (pts ++ [point]))
      else
        match subdivideBounds b with
        | (nwB, neB, swB, seB) =>
          tryChildren point b pts (leaf nwB []) (leaf neB []) (leaf swB []) (leaf seB [])
            (insert capacity maxDepth (depth + 1) (leaf nwB []) point)
            (insert capacity maxDepth (depth + 1) (leaf neB []) point)
            (insert capacity maxDepth (depth + 1) (leaf swB []) point)
            (insert capacity maxDepth (depth + 1) (leaf seB []) point)
    else (false, t)
  | node b pts nw ne sw se =>
    if b.contains point then
      if _h : pts.length < capacity ∨ maxDepth ≤ depth then
        (true, node b (pts ++ [point]) nw ne sw se)
      else
        tryChildren point b pts nw ne sw se
          (insert capacity maxDepth (depth + 1) nw point)
          (insert capacity maxDepth (depth + 1) ne point)
          (insert capacity maxDepth (depth + 1) sw point)
          (insert capacity maxDepth (depth + 1) se point)
    else (false, t)
termination_by maxDepth - depth
decreasing_by all_goals omega

/-- `Quadtree.getAllPoints` (src/src/spatial/Quadtree.ts): local points
then NW, NE, SW, SE recursively. -/
def getAllPoints : Quadtree → List Point
  | leaf _ pts => pts
  | node _ pts nw ne sw se =>
    pts ++ (nw.getAllPoints ++ (ne.getAllPoints ++ (sw.getAllPoints ++ se.getAllPoints)))

/-- `Quadtree.size` (src/src/spatial/Quadtree.ts). -/
def size : Quadtree → ℕ
  | leaf _ pts => pts.length
  | node _ pts nw ne sw se => pts.length + (nw.size + (ne.size + (sw.size + se.size)))

/-- The point-in-circle test of `Quadtree.queryCircle`
(src/src/spatial/Quadtree.ts): `dx*dx + dy*dy <= radiusSquared`. -/
def inCircle (cx cy radius : ℚ) (p : Point) : Bool :=
  decide ((p.x - cx) * (p.x - cx) + (p.y - cy) * (p.y - cy) ≤ radius * radius)

/-- `Quadtree.queryCircle` (src/src/spatial/Quadtree.ts): prune when
the bounds miss the circle, collect matching local points into the
accumulator, recurse into the children. -/
def queryCircle (t : Quadtree) (cx cy radius : ℚ) (found : List Point) :
    List Point :=
  match t with
  | leaf b pts =>
    if b.intersectsCircle cx cy radius then
      found ++ pts.filter (inCircle cx cy radius)
    else found
  | node b pts nw ne sw se =>
    if b.intersectsCircle cx cy radius then
      queryCircle se cx cy radius
        (queryCircle sw cx cy radius
          (queryCircle ne cx cy radius
            (queryCircle nw cx cy radius
              (found ++ pts.filter (inCircle cx cy radius)))))
    else found

/-- `Quadtree.distToBounds` (src/src/spatial/Quadtree.ts): squared
distance from `(x, y)` to the closest point of the bounds. -/
def distToBounds (x y : ℚ) (b : Bounds) : ℚ :=
  b.closestDistSquared x y

/-- The state of `findNearest`'s closure: the current `nearest`
candidate and `nearestDistSquared` (src/src/spatial/Quadtree.ts). -/
abbrev SearchState := Option Point × ℚ

/-- The squared distance `dx*dx + dy*dy` from a stored point to the
query location, as computed inside `findNearest`
(src/src/spatial/Quadtree.ts). -/
def distSqTo (x y : ℚ) (p : Point) : ℚ :=
  (p.x - x) * (p.x - x) + (p.y - y) * (p.y - y)

/-- The per-point update of `findNearest`'s scan: replace the candidate
when the squared distance is strictly smaller. -/
def updateNearest (x y : ℚ) (s : SearchState) (p : Point) : SearchState :=
  let distSquared := distSqTo x y p
  if distSquared < s.2 then (some p, distSquared) else s

/-- Stable insertion into a list sorted by `key` ascending: an element
goes before the first strictly-farther element, matching the stable
ascending sort of `children.sort((a, b) => aDist - bDist)`. -/
def insertByKey (key : Quadtree → ℚ) (c : Quadtree) : List Quadtree → List Quadtree
  | [] => [c]
  | d :: ds => if key d < key c then d :: insertByKey key c ds else c :: d :: ds

/-- Stable sort by `key` ascending (insertion sort), modelling the
child ordering of `findNearest` (src/src/spatial/Quadtree.ts). -/
def sortByKey (key : Quadtree → ℚ) : List Quadtree → List Quadtree
  | [] => []
  | c :: cs => insertByKey key c (sortByKey key cs)

/-- Node count of a quadtree, used as termination measure for the
`findNearest` search. -/
def qsize : Quadtree → ℕ
  | leaf _ _ => 1
  | node _ _ nw ne sw se => 1 + qsize nw + qsize ne + qsize sw + qsize se

/-- Total node count of a list of quadtrees. -/
def qsizeList : List Quadtree → ℕ
  | [] => 0
  | c :: cs => qsize c + qsizeList cs

theorem qsizeList_insertByKey (key : Quadtree → ℚ) (c : Quadtree) (l : List Quadtree) :
    qsizeList (insertByKey key c l) = qsize c + qsizeList l := by
  induction l with
  | nil => rfl
  | cons d ds ih =>
    simp only [insertByKey]
    split
    · simp only [qsizeList, ih]; omega
    · simp [qsizeList]

theorem qsizeList_sortByKey (key : Quadtree → ℚ) (l : List Quadtree) :
    qsizeList (sortByKey key l) = qsizeList l := by
  induction l with
  | nil => rfl
  | cons c cs ih =>
    simp [sortByKey, qsizeList_insertByKey, ih, qsizeList]

theorem length_insertByKey (key : Quadtree → ℚ) (c : Quadtree) (l : List Quadtree) :
    (insertByKey key c l).length = l.length + 1 := by
  induction l with
  | nil => rfl
  | cons d ds ih =>
    simp only [insertByKey]
    split <;> simp only [List.length_cons, ih]

theorem length_sortByKey (key : Quadtree → ℚ) (l : List Quadtree) :
    (sortByKey key l).length = l.length := by
  induction l with
  | nil => rfl
  | cons c cs ih =>
    simp [sortByKey, length_insertByKey, ih]

mutual
/-- The recursive `search` closure of `Quadtree.findNearest`
(src/src/spatial/Quadtree.ts): prune nodes whose bounds are farther
than the current best squared distance (the source tests
`intersectsCircle(x, y, √nearestDistSquared)`), scan local points,
then descend into the children ordered by `distToBounds`. -/
def search (x y : ℚ) (t : Quadtree) (s : SearchState) : SearchState :=
  match t with
  | leaf b pts =>
    if b.intersectsCircleSq x y s.2 then pts.foldl (updateNearest x y) s else s
  | node b pts nw ne sw se =>
    if b.intersectsCircleSq x y s.2 then
      searchChildren x y
        (sortByKey (fun child => distToBounds x y child.bounds) [nw, ne, sw, se])
        (pts.foldl (updateNearest x y) s)
    else s
  termination_by 5 * qsize t
  decreasing_by
    simp only [qsizeList_sortByKey, length_sortByKey, qsizeList, qsize,
      List.length_cons, List.length_nil]
    omega

/-- Folds `search` over the (sorted) children list. -/
def searchChildren (x y : ℚ) (l : List Quadtree) (s : SearchState) : SearchState :=
  match l with
  | [] => s
  | c :: cs => searchChildren x y cs (search x y c s)
  termination_by 5 * qsizeList l + l.length
  decreasing_by
  · simp only [qsizeList, List.length_cons]; omega
  · simp only [qsizeList, List.length_cons]; omega
end

/-- `Quadtree.findNearest` (src/src/spatial/Quadtree.ts): run `search`
from the root with no candidate and `nearestDistSquared =
maxDistance * maxDistance`. -/
def findNearest (t : Quadtree) (x y maxDistance : ℚ) : Option Point :=
  (search x y t (none, maxDistance * maxDistance)).1

/-- A tree built by constructing an empty root (`new Quadtree(bounds,
capacity, maxDepth)`) and inserting a list of points in order. -/
def build (b : Bounds) (capacity maxDepth : ℕ) (points : List Point) : Quadtree :=
  points.foldl (fun t p => (insert capacity maxDepth 0 t p).2) (leaf b [])

/-- `Quadtree.fromPoints` (src/src/spatial/Quadtree.ts): root bounds
`(0, 0, width, height)`, default `maxDepth = 8`, insert every point. -/
def fromPoints (points : List Point) (width height : ℚ) (capacity : ℕ) : Quadtree :=
  build ⟨0, 0, width, height⟩ capacity 8 points

/-- Well-formedness of a quadtree: every locally stored point is within
the node's bounds, and every child's bounds are contained in the
parent's.  This is the invariant the insertion path maintains (a point
is only stored after `bounds.contains` succeeds, and `subdivide`
creates quadrant children). -/
def wf : Quadtree → Prop
  | leaf b pts => ∀ p ∈ pts, b.contains p = true
  | node b pts nw ne sw se =>
    (∀ p ∈ pts, b.contains p = true) ∧
    (∀ p, nw.bounds.contains p = true → b.contains p = true) ∧
    (∀ p, ne.bounds.contains p = true → b.contains p = true) ∧
    (∀ p, sw.bounds.contains p = true → b.contains p = true) ∧
    (∀ p, se.bounds.contains p = true → b.contains p = true) ∧
    wf nw ∧ wf ne ∧ wf sw ∧ wf se

end Quadtree

/-- The 2D cross product `(b - a) × (p - a)`: positive when `p` lies to
the left of the directed line `a → b`, zero when collinear. -/
def crossProd (a b p : Point) : ℚ :=
  (b.x - a.x) * (p.y - a.y) - (b.y - a.y) * (p.x - a.x)

/-- A triangle has non-collinear vertices. -/
def NonCollinear (t : Triangle) : Prop :=
  crossProd t.a t.b t.c ≠ 0

instance (t : Triangle) : Decidable (NonCollinear t) := by
  unfold NonCollinear; infer_instance

/-- `p` lies strictly inside triangle `t`: strictly on the same side of
all three directed edges (either orientation). -/
def StrictlyInside (t : Triangle) (p : Point) : Prop :=
  (0 < crossProd t.a t.b p ∧ 0 < crossProd t.b t.c p ∧ 0 < crossProd t.c t.a p) ∨
  (crossProd t.a t.b p < 0 ∧ crossProd t.b t.c p < 0 ∧ crossProd t.c t.a p < 0)

instance (t : Triangle) (p : Point) : Decidable (StrictlyInside t p) := by
  unfold StrictlyInside; infer_instance

/-! ## Claims -/

section MinMaxFolds

theorem foldl_qmin_le_init (f : Point → ℚ) (l : List Point) (init : ℚ) :
    l.foldl (fun acc p => qmin acc (f p)) init ≤ init := by
  induction l generalizing init with
  | nil => simp
  | cons q qs ih => exact le_trans (ih _) (qmin_le_left _ _)

theorem foldl_qmin_le_mem (f : Point → ℚ) (l : List Point) (init : ℚ)
    (p : Point) (hp : p ∈ l) :
    l.foldl (fun acc p => qmin acc (f p)) init ≤ f p := by
  induction l generalizing init with
  | nil => cases hp
  | cons q qs ih =>
    rcases List.mem_cons.mp hp with h | h
    · subst h
      exact le_trans (foldl_qmin_le_init f qs _) (qmin_le_right _ _)
    · exact ih _ h

theorem init_le_foldl_qmax (f : Point → ℚ) (l : List Point) (init : ℚ) :
    init ≤ l.foldl (fun acc p => qmax acc (f p)) init := by
  induction l generalizing init with
  | nil => simp
  | cons q qs ih => exact le_trans (le_qmax_left _ _) (ih _)

theorem mem_le_foldl_qmax (f : Point → ℚ) (l : List Point) (init : ℚ)
    (p : Point) (hp : p ∈ l) :
    f p ≤ l.foldl (fun acc p => qmax acc (f p)) init := by
  induction l generalizing init with
  | nil => cases hp
  | cons q qs ih =>
    rcases List.mem_cons.mp hp with h | h
    · subst h
      exact le_trans (le_qmax_right _ _) (init_le_foldl_qmax f qs _)
    · exact ih _ h

end MinMaxFolds

namespace Quadtree

theorem wf_leaf_empty (b : Bounds) : wf (leaf b []) := by
  simp [wf]

/-- The four quadrant bounds produced by `subdivide` are contained in
the parent bounds. -/
theorem quadrant_contains (b : Bounds) (p : Point) :
    ((Bounds.mk b.x b.y (b.width / 2) (b.height / 2)).contains p = true →
      b.contains p = true) ∧
    ((Bounds.mk (b.x + b.width / 2) b.y (b.width / 2) (b.height / 2)).contains p = true →
      b.contains p = true) ∧
    ((Bounds.mk b.x (b.y + b.height / 2) (b.width / 2) (b.height / 2)).contains p = true →
      b.contains p = true) ∧
    ((Bounds.mk (b.x + b.width / 2) (b.y + b.height / 2) (b.width / 2) (b.height / 2)).contains p = true →
      b.contains p = true) := by
  unfold Bounds.contains
  simp only [Bool.and_eq_true, decide_eq_true_eq]
  refine ⟨?_, ?_, ?_, ?_⟩ <;> rintro ⟨⟨⟨hx1, hx2⟩, hy1⟩, hy2⟩ <;>
    refine ⟨⟨⟨by linarith, by linarith⟩, by linarith⟩, by linarith⟩

/-- In a well-formed tree, every stored point of the subtree lies
within the subtree's root bounds. -/
theorem mem_getAllPoints_contains (t : Quadtree) (hwf : wf t) :
    ∀ p ∈ t.getAllPoints, t.bounds.contains p = true := by
  induction t with
  | leaf b pts => exact hwf
  | node b pts nw ne sw se ihnw ihne ihsw ihse =>
    obtain ⟨hpts, hnw, hne, hsw, hse, wnw, wne, wsw, wse⟩ := hwf
    intro p hp
    simp only [getAllPoints, List.mem_append] at hp
    rcases hp with h | h | h | h | h
    · exact hpts p h
    · exact hnw p (ihnw wnw p h)
    · exact hne p (ihne wne p h)
    · exact hsw p (ihsw wsw p h)
    · exact hse p (ihse wse p h)

/-- `size` counts the stored points. -/
theorem size_eq_length (t : Quadtree) : t.size = t.getAllPoints.length := by
  induction t with
  | leaf b pts => rfl
  | node b pts nw ne sw se ihnw ihne ihsw ihse =>
    simp [size, getAllPoints, ihnw, ihne, ihsw, ihse]

/-- Specification of a child insert result `r` for original child `c`:
either the child rejected the point and is unchanged, or it accepted it,
kept its bounds, gained exactly the point, and stayed well-formed. -/
def childResult (point : Point) (c : Quadtree) (r : Bool × Quadtree) : Prop :=
  r = (false, c) ∨
  (r.1 = true ∧ r.2.bounds = c.bounds ∧
    r.2.getAllPoints.Perm (point :: c.getAllPoints) ∧ (wf c → wf r.2))

/-- Pull a freshly inserted element out across a prepended list. -/
theorem perm_append_cons_left (a : Point) (l : List Point) {X Y : List Point}
    (h : X.Perm (a :: Y)) : (l ++ X).Perm (a :: (l ++ Y)) :=
  List.Perm.trans (List.Perm.append_left l h) List.perm_middle

theorem tryChildren_spec (point : Point) (b : Bounds) (pts : List Point)
    (nw ne sw se : Quadtree) (r1 r2 r3 r4 : Bool × Quadtree)
    (h1 : childResult point nw r1) (h2 : childResult point ne r2)
    (h3 : childResult point sw r3) (h4 : childResult point se r4) :
    (tryChildren point b pts nw ne sw se r1 r2 r3 r4).1 = true ∧
    (tryChildren point b pts nw ne sw se r1 r2 r3 r4).2.bounds = b ∧
    (tryChildren point b pts nw ne sw se r1 r2 r3 r4).2.getAllPoints.Perm
      (point :: (pts ++ (nw.getAllPoints ++ (ne.getAllPoints ++
        (sw.getAllPoints ++ se.getAllPoints))))) ∧
    ((∀ p ∈ pts, b.contains p = true) → b.contains point = true →
      (∀ p, nw.bounds.contains p = true → b.contains p = true) →
      (∀ p, ne.bounds.contains p = true → b.contains p = true) →
      (∀ p, sw.bounds.contains p = true → b.contains p = true) →
      (∀ p, se.bounds.contains p = true → b.contains p = true) →
      wf nw → wf ne → wf sw → wf se →
      wf (tryChildren point b pts nw ne sw se r1 r2 r3 r4).2) := by
  rcases h1 with rfl | ⟨hb1, hbd1, hp1, hw1⟩
  · rcases h2 with rfl | ⟨hb2, hbd2, hp2, hw2⟩
    · rcases h3 with rfl | ⟨hb3, hbd3, hp3, hw3⟩
      · rcases h4 with rfl | ⟨hb4, hbd4, hp4, hw4⟩
        · -- fallback: all four children rejected the point
          have e : tryChildren point b pts nw ne sw se (false, nw) (false, ne) (false, sw) (false, se)
              = (true, node b (pts ++ [point]) nw ne sw se) := by
            simp [tryChildren]
          rw [e]
          refine ⟨rfl, rfl, ?_, ?_⟩
          · simp only [getAllPoints, List.append_assoc, List.singleton_append]
            exact List.perm_middle
          · intro hpts hpoint hsnw hsne hssw hsse wnw wne wsw wse
            refine ⟨?_, hsnw, hsne, hssw, hsse, wnw, wne, wsw, wse⟩
            intro p hp
            rcases List.mem_append.mp hp with h | h
            · exact hpts p h
            · rw [List.mem_singleton.mp h]; exact hpoint
        · -- SE child accepted
          have e : tryChildren point b pts nw ne sw se (false, nw) (false, ne) (false, sw) r4
              = (true, node b pts nw ne sw r4.2) := by
            simp [tryChildren, hb4]
          rw [e]
          refine ⟨rfl, rfl, ?_, ?_⟩
          · simp only [getAllPoints]
            exact perm_append_cons_left point pts (perm_append_cons_left point nw.getAllPoints
              (perm_append_cons_left point ne.getAllPoints
                (perm_append_cons_left point sw.getAllPoints hp4)))
          · intro hpts hpoint hsnw hsne hssw hsse wnw wne wsw wse
            exact ⟨hpts, hsnw, hsne, hssw, fun p hp => hsse p (hbd4 ▸ hp),
              wnw, wne, wsw, hw4 wse⟩
      · -- SW child accepted
        have e : tryChildren point b pts nw ne sw se (false, nw) (false, ne) r3 r4
            = (true, node b pts nw ne r3.2 se) := by
          simp [tryChildren, hb3]
        rw [e]
        refine ⟨rfl, rfl, ?_, ?_⟩
        · simp only [getAllPoints]
          exact perm_append_cons_left point pts (perm_append_cons_left point nw.getAllPoints
            (perm_append_cons_left point ne.getAllPoints (hp3.append_right se.getAllPoints)))
        · intro hpts hpoint hsnw hsne hssw hsse wnw wne wsw wse
          exact ⟨hpts, hsnw, hsne, fun p hp => hssw p (hbd3 ▸ hp), hsse,
            wnw, wne, hw3 wsw, wse⟩
    · -- NE child accepted
      have e : tryChildren point b pts nw ne sw se (false, nw) r2 r3 r4
          = (true, node b pts nw r2.2 sw se) := by
        simp [tryChildren, hb2]
      rw [e]
      refine ⟨rfl, rfl, ?_, ?_⟩
      · simp only [getAllPoints]
        exact perm_append_cons_left point pts (perm_append_cons_left point nw.getAllPoints
          (hp2.append_right _))
      · intro hpts hpoint hsnw hsne hssw hsse wnw wne wsw wse
        exact ⟨hpts, hsnw, fun p hp => hsne p (hbd2 ▸ hp), hssw, hsse,
          wnw, hw2 wne, wsw, wse⟩
  · -- NW child accepted
    have e : tryChildren point b pts nw ne sw se r1 r2 r3 r4
        = (true, node b pts r1.2 ne sw se) := by
      simp [tryChildren, hb1]
    rw [e]
    refine ⟨rfl, rfl, ?_, ?_⟩
    · simp only [getAllPoints]
      exact perm_append_cons_left point pts (hp1.append_right _)
    · intro hpts hpoint hsnw hsne hssw hsse wnw wne wsw wse
      exact ⟨hpts, fun p hp => hsnw p (hbd1 ▸ hp), hsne, hssw, hsse,
        hw1 wnw, wne, wsw, wse⟩

/-- Main specification of `insert`: a point outside the bounds is
rejected with no change; a point inside is always stored (returns
`true`), the root bounds are unchanged, the stored multiset gains
exactly the point, and well-formedness is preserved. -/
theorem insert_main (capacity maxDepth : ℕ) :
    ∀ (fuel depth : ℕ) (t : Quadtree) (point : Point), maxDepth - depth ≤ fuel →
      (t.bounds.contains point = false →
        insert capacity maxDepth depth t point = (false, t)) ∧
      (t.bounds.contains point = true →
        (insert capacity maxDepth depth t point).1 = true ∧
        (insert capacity maxDepth depth t point).2.bounds = t.bounds ∧
        ((insert capacity maxDepth depth t point).2.getAllPoints).Perm
          (point :: t.getAllPoints) ∧
        (wf t → wf (insert capacity maxDepth depth t point).2)) := by
  intro fuel
  induction fuel using Nat.strong_induction_on with
  | _ fuel ih =>
    intro depth t point hfuel
    have hchild : ∀ c : Quadtree, ¬(maxDepth ≤ depth) →
        childResult point c (insert capacity maxDepth (depth + 1) c point) := by
      intro c hdep
      have hm : maxDepth - (depth + 1) < fuel := by omega
      have hspec := ih (maxDepth - (depth + 1)) hm (depth + 1) c point (le_refl _)
      by_cases hcc : c.bounds.contains point = true
      · exact Or.inr (hspec.2 hcc)
      · exact Or.inl (hspec.1 (by simpa using hcc))
    cases t with
    | leaf b pts =>
      constructor
      · intro hc
        have hnc : ¬(b.contains point = true) := by
          have hcb : b.contains point = false := hc
          simp [hcb]
        rw [insert, if_neg hnc]
      · intro hc
        have hcb : b.contains point = true := hc
        by_cases hcap : pts.length < capacity ∨ maxDepth ≤ depth
        · have e : insert capacity maxDepth depth (leaf b pts) point
              = (true, leaf b (pts ++ [point])) := by
            rw [insert, if_pos hcb, dif_pos hcap]
          rw [e]
          refine ⟨rfl, rfl, ?_, ?_⟩
          · show (pts ++ [point]).Perm (point :: (leaf b pts).getAllPoints)
            have h := @List.perm_middle Point point pts []
            rw [List.append_nil] at h
            exact h
          · intro hwf
            intro p hp
            rcases List.mem_append.mp hp with h | h
            · exact hwf p h
            · rw [List.mem_singleton.mp h]; exact hcb
        · have hdep : ¬(maxDepth ≤ depth) := fun h => hcap (Or.inr h)
          have e : insert capacity maxDepth depth (leaf b pts) point
              = tryChildren point b pts
                  (leaf ⟨b.x, b.y, b.width / 2, b.height / 2⟩ [])
                  (leaf ⟨b.x + b.width / 2, b.y, b.width / 2, b.height / 2⟩ [])
                  (leaf ⟨b.x, b.y + b.height / 2, b.width / 2, b.height / 2⟩ [])
                  (leaf ⟨b.x + b.width / 2, b.y + b.height / 2, b.width / 2, b.height / 2⟩ [])
                  (insert capacity maxDepth (depth + 1)
                    (leaf ⟨b.x, b.y, b.width / 2, b.height / 2⟩ []) point)
                  (insert capacity maxDepth (depth + 1)
                    (leaf ⟨b.x + b.width / 2, b.y, b.width / 2, b.height / 2⟩ []) point)
                  (insert capacity maxDepth (depth + 1)
                    (leaf ⟨b.x, b.y + b.height / 2, b.width / 2, b.height / 2⟩ []) point)
                  (insert capacity maxDepth (depth + 1)
                    (leaf ⟨b.x + b.width / 2, b.y + b.height / 2, b.width / 2, b.height / 2⟩ []) point) := by
            rw [insert, if_pos hcb, dif_neg hcap]
            simp only [subdivideBounds]
          have hspec := tryChildren_spec point b pts
            (leaf ⟨b.x, b.y, b.width / 2, b.height / 2⟩ [])
            (leaf ⟨b.x + b.width / 2, b.y, b.width / 2, b.height / 2⟩ [])
            (leaf ⟨b.x, b.y + b.height / 2, b.width / 2, b.height / 2⟩ [])
            (leaf ⟨b.x + b.width / 2, b.y + b.height / 2, b.width / 2, b.height / 2⟩ [])
            _ _ _ _
            (hchild (leaf ⟨b.x, b.y, b.width / 2, b.height / 2⟩ []) hdep)
            (hchild (leaf ⟨b.x + b.width / 2, b.y, b.width / 2, b.height / 2⟩ []) hdep)
            (hchild (leaf ⟨b.x, b.y + b.height / 2, b.width / 2, b.height / 2⟩ []) hdep)
            (hchild (leaf ⟨b.x + b.width / 2, b.y + b.height / 2, b.width / 2, b.height / 2⟩ []) hdep)
          rw [e]
          refine ⟨hspec.1, hspec.2.1, ?_, ?_⟩
          · simpa [getAllPoints] using hspec.2.2.1
          · intro hwf
            refine hspec.2.2.2 hwf hcb
              (fun p hp => ?_) (fun p hp => ?_) (fun p hp => ?_) (fun p hp => ?_)
              (wf_leaf_empty _) (wf_leaf_empty _) (wf_leaf_empty _) (wf_leaf_empty _)
            · exact (quadrant_contains b p).1 hp
            · exact (quadrant_contains b p).2.1 hp
            · exact (quadrant_contains b p).2.2.1 hp
            · exact (quadrant_contains b p).2.2.2 hp
    | node b pts nw ne sw se =>
      constructor
      · intro hc
        have hnc : ¬(b.contains point = true) := by
          have hcb : b.contains point = false := hc
          simp [hcb]
        rw [insert, if_neg hnc]
      · intro hc
        have hcb : b.contains point = true := hc
        by_cases hcap : pts.length < capacity ∨ maxDepth ≤ depth
        · have e : insert capacity maxDepth depth (node b pts nw ne sw se) point
              = (true, node b (pts ++ [point]) nw ne sw se) := by
            rw [insert, if_pos hcb, dif_pos hcap]
          rw [e]
          refine ⟨rfl, rfl, ?_, ?_⟩
          · simp only [getAllPoints, List.append_assoc, List.singleton_append]
            exact List.perm_middle
          · intro hwf
            obtain ⟨hpts, hsnw, hsne, hssw, hsse, wnw, wne, wsw, wse⟩ := hwf
            refine ⟨?_, hsnw, hsne, hssw, hsse, wnw, wne, wsw, wse⟩
            intro p hp
            rcases List.mem_append.mp hp with h | h
            · exact hpts p h
            · rw [List.mem_singleton.mp h]; exact hcb
        · have hdep : ¬(maxDepth ≤ depth) := fun h => hcap (Or.inr h)
          have e : insert capacity maxDepth depth (node b pts nw ne sw se) point
              = tryChildren point b pts nw ne sw se
                  (insert capacity maxDepth (depth + 1) nw point)
                  (insert capacity maxDepth (depth + 1) ne point)
                  (insert capacity maxDepth (depth + 1) sw point)
                  (insert capacity maxDepth (depth + 1) se point) := by
            rw [insert, if_pos hcb, dif_neg hcap]
          have hspec := tryChildren_spec point b pts nw ne sw se _ _ _ _
            (hchild _ hdep) (hchild _ hdep) (hchild _ hdep) (hchild _ hdep)
          rw [e]
          refine ⟨hspec.1, hspec.2.1, ?_, ?_⟩
          · simpa [getAllPoints] using hspec.2.2.1
          · intro hwf
            obtain ⟨hpts, hsnw, hsne, hssw, hsse, wnw, wne, wsw, wse⟩ := hwf
            exact hspec.2.2.2 hpts hcb hsnw hsne hssw hsse wnw wne wsw wse

/-- `insert_main` without the explicit fuel. -/
theorem insert_spec (capacity maxDepth depth : ℕ) (t : Quadtree) (point : Point) :
    (t.bounds.contains point = false →
      insert capacity maxDepth depth t point = (false, t)) ∧
    (t.bounds.contains point = true →
      (insert capacity maxDepth depth t point).1 = true ∧
      (insert capacity maxDepth depth t point).2.bounds = t.bounds ∧
      ((insert capacity maxDepth depth t point).2.getAllPoints).Perm
        (point :: t.getAllPoints) ∧
      (wf t → wf (insert capacity maxDepth depth t point).2)) :=
  insert_main capacity maxDepth (maxDepth - depth) depth t point (le_refl _)

/-- Folding `insert` over a point list keeps the root bounds and
well-formedness, and stores exactly the points accepted by the root
bounds. -/
theorem foldl_insert_spec (b : Bounds) (capacity maxDepth : ℕ) (pts : List Point) :
    ∀ t : Quadtree, t.bounds = b → wf t →
      (pts.foldl (fun acc p => (insert capacity maxDepth 0 acc p).2) t).bounds = b ∧
      wf (pts.foldl (fun acc p => (insert capacity maxDepth 0 acc p).2) t) ∧
      (pts.foldl (fun acc p => (insert capacity maxDepth 0 acc p).2) t).getAllPoints.Perm
        ((pts.filter fun p => b.contains p) ++ t.getAllPoints) := by
  induction pts with
  | nil =>
    intro t htb hwf
    exact ⟨htb, hwf, by simp⟩
  | cons p ps ih =>
    intro t htb hwf
    have hspec := insert_spec capacity maxDepth 0 t p
    by_cases hc : b.contains p = true
    · have hc2 : t.bounds.contains p = true := by rw [htb]; exact hc
      obtain ⟨-, hbd, hperm, hwf2⟩ := hspec.2 hc2
      have hstep := ih ((insert capacity maxDepth 0 t p).2) (by rw [hbd, htb]) (hwf2 hwf)
      have hfil : List.filter (fun q => b.contains q) (p :: ps)
          = p :: List.filter (fun q => b.contains q) ps := by
        simp [List.filter_cons, hc]
      refine ⟨hstep.1, hstep.2.1, ?_⟩
      simp only [List.foldl_cons, hfil]
      refine hstep.2.2.trans ?_
      refine List.Perm.trans (List.Perm.append_left _ hperm) ?_
      simp only [List.cons_append]
      exact List.perm_middle
    · have hcf : b.contains p = false := by simpa using hc
      have hc2 : t.bounds.contains p = false := by rw [htb]; exact hcf
      have heq := hspec.1 hc2
      have hstep := ih t htb hwf
      have hfil : List.filter (fun q => b.contains q) (p :: ps)
          = List.filter (fun q => b.contains q) ps := by
        simp [List.filter_cons, hcf]
      refine ⟨?_, ?_, ?_⟩ <;> simp only [List.foldl_cons, heq, hfil]
      · exact hstep.1
      · exact hstep.2.1
      · exact hstep.2.2

/-- The bounds, well-formedness and stored points of a built tree. -/
theorem build_spec (b : Bounds) (capacity maxDepth : ℕ) (pts : List Point) :
    (build b capacity maxDepth pts).bounds = b ∧
    wf (build b capacity maxDepth pts) ∧
    (build b capacity maxDepth pts).getAllPoints.Perm
      (pts.filter fun p => b.contains p) := by
  have h := foldl_insert_spec b capacity maxDepth pts (leaf b []) rfl (wf_leaf_empty b)
  refine ⟨h.1, h.2.1, ?_⟩
  have := h.2.2
  simpa [getAllPoints] using this

/-- Clamping to a closed interval minimizes the per-axis squared
distance: the clamped coordinate is at least as close to `c` as any
point of the interval. -/
theorem clamp_sq_le (lo hi c v : ℚ) (h1 : lo ≤ v) (h2 : v ≤ hi) :
    (c - qmax lo (qmin c hi)) * (c - qmax lo (qmin c hi)) ≤ (c - v) * (c - v) := by
  unfold qmax qmin
  split_ifs <;> nlinarith

/-- Pruning soundness of `queryCircle`: if a node's bounds do not
intersect the circle, no point within the bounds is in the circle. -/
theorem not_inCircle_of_out (b : Bounds) (cx cy radius : ℚ) (p : Point)
    (hp : b.contains p = true) (hni : b.intersectsCircle cx cy radius = false) :
    inCircle cx cy radius p = false := by
  simp only [Bounds.contains, Bool.and_eq_true, decide_eq_true_eq] at hp
  obtain ⟨⟨⟨hx1, hx2⟩, hy1⟩, hy2⟩ := hp
  have h1 := clamp_sq_le b.x (b.x + b.width) cx p.x hx1 (le_of_lt hx2)
  have h2 := clamp_sq_le b.y (b.y + b.height) cy p.y hy1 (le_of_lt hy2)
  simp only [Bounds.intersectsCircle, Bounds.intersectsCircleSq,
    Bounds.closestDistSquared, decide_eq_false_iff_not, not_le] at hni
  simp only [inCircle, decide_eq_false_iff_not, not_le]
  nlinarith [h1, h2, hni]

/-- `queryCircle` on a well-formed tree is the brute-force distance
filter over all stored points, appended to the accumulator. -/
theorem queryCircle_eq_filter (cx cy radius : ℚ) (t : Quadtree) (hwf : wf t) :
    ∀ acc, queryCircle t cx cy radius acc
      = acc ++ t.getAllPoints.filter (inCircle cx cy radius) := by
  induction t with
  | leaf b pts =>
    intro acc
    by_cases hi : b.intersectsCircle cx cy radius = true
    · simp [queryCircle, hi, getAllPoints]
    · have hni : b.intersectsCircle cx cy radius = false := by simpa using hi
      have hfil : pts.filter (inCircle cx cy radius) = [] := by
        refine List.filter_eq_nil_iff.mpr ?_
        intro p hp
        simp [not_inCircle_of_out b cx cy radius p (hwf p hp) hni]
      simp [queryCircle, hni, getAllPoints, hfil]
  | node b pts nw ne sw se ihnw ihne ihsw ihse =>
    intro acc
    by_cases hi : b.intersectsCircle cx cy radius = true
    · obtain ⟨hpts, hsnw, hsne, hssw, hsse, wnw, wne, wsw, wse⟩ := hwf
      simp only [queryCircle, hi, if_true]
      rw [ihnw wnw, ihne wne, ihsw wsw, ihse wse]
      simp [getAllPoints, List.filter_append, List.append_assoc]
    · have hni : b.intersectsCircle cx cy radius = false := by simpa using hi
      have hfil : (node b pts nw ne sw se).getAllPoints.filter (inCircle cx cy radius) = [] := by
        refine List.filter_eq_nil_iff.mpr ?_
        intro p hp
        have hcp := mem_getAllPoints_contains (node b pts nw ne sw se) hwf p hp
        simp [not_inCircle_of_out b cx cy radius p hcp hni]
      rw [hfil]
      simp [queryCircle, hni]

/-- One step of the `findNearest` state evolution over a set `S` of
scanned points: the best squared distance never grows; the state is
either unchanged or improved to some scanned point at its exact squared
distance; and afterwards no scanned point is strictly closer. -/
def StateStep (x y : ℚ) (S : List Point) (s s2 : SearchState) : Prop :=
  s2.2 ≤ s.2 ∧
  (s2 = s ∨ ∃ p ∈ S, s2.1 = some p ∧ s2.2 = distSqTo x y p ∧ s2.2 < s.2) ∧
  ∀ q ∈ S, s2.2 ≤ distSqTo x y q

theorem StateStep_trans {x y : ℚ} {S1 S2 : List Point} {s s1 s2 : SearchState}
    (h1 : StateStep x y S1 s s1) (h2 : StateStep x y S2 s1 s2) :
    StateStep x y (S1 ++ S2) s s2 := by
  obtain ⟨hle1, hd1, hm1⟩ := h1
  obtain ⟨hle2, hd2, hm2⟩ := h2
  refine ⟨le_trans hle2 hle1, ?_, ?_⟩
  · rcases hd2 with rfl | ⟨p, hp, hsome, hdist, hlt⟩
    · rcases hd1 with rfl | ⟨p, hp, hsome, hdist, hlt⟩
      · exact Or.inl rfl
      · exact Or.inr ⟨p, List.mem_append.mpr (Or.inl hp), hsome, hdist, hlt⟩
    · exact Or.inr ⟨p, List.mem_append.mpr (Or.inr hp), hsome, hdist,
        lt_of_lt_of_le hlt hle1⟩
  · intro q hq
    rcases List.mem_append.mp hq with h | h
    · exact le_trans hle2 (hm1 q h)
    · exact hm2 q h

theorem StateStep_congr {x y : ℚ} {S S2 : List Point} {s s2 : SearchState}
    (h : ∀ a, a ∈ S ↔ a ∈ S2) (hs : StateStep x y S s s2) :
    StateStep x y S2 s s2 := by
  obtain ⟨hle, hd, hm⟩ := hs
  refine ⟨hle, ?_, fun q hq => hm q ((h q).mpr hq)⟩
  rcases hd with rfl | ⟨p, hp, hrest⟩
  · exact Or.inl rfl
  · exact Or.inr ⟨p, (h p).mp hp, hrest⟩

theorem foldl_updateNearest_step (x y : ℚ) (pts : List Point) :
    ∀ s, StateStep x y pts s (pts.foldl (updateNearest x y) s) := by
  induction pts with
  | nil => exact fun s => ⟨le_refl _, Or.inl rfl, by simp⟩
  | cons p ps ih =>
    intro s
    have hstep1 : StateStep x y [p] s (updateNearest x y s p) := by
      simp only [updateNearest]
      split
      · rename_i hlt
        refine ⟨le_of_lt hlt, Or.inr ⟨p, by simp, rfl, rfl, hlt⟩, ?_⟩
        intro q hq
        rw [List.mem_singleton.mp hq]
      · rename_i hlt
        push_neg at hlt
        refine ⟨le_refl _, Or.inl rfl, ?_⟩
        intro q hq
        rw [List.mem_singleton.mp hq]
        exact hlt
    have hcomb := StateStep_trans hstep1 (ih (updateNearest x y s p))
    simpa using hcomb

/-- Pruning soundness of the `findNearest` search: when the bounds are
farther than `d` (the `intersectsCircle(x, y, √d)` test fails), every
point within the bounds is at squared distance at least `d`. -/
theorem le_distSqTo_of_out (b : Bounds) (x y d : ℚ) (p : Point)
    (hp : b.contains p = true) (h : b.intersectsCircleSq x y d = false) :
    d ≤ distSqTo x y p := by
  simp only [Bounds.contains, Bool.and_eq_true, decide_eq_true_eq] at hp
  obtain ⟨⟨⟨hx1, hx2⟩, hy1⟩, hy2⟩ := hp
  have h1 := clamp_sq_le b.x (b.x + b.width) x p.x hx1 (le_of_lt hx2)
  have h2 := clamp_sq_le b.y (b.y + b.height) y p.y hy1 (le_of_lt hy2)
  simp only [Bounds.intersectsCircleSq, Bounds.closestDistSquared,
    decide_eq_false_iff_not, not_le] at h
  unfold distSqTo
  nlinarith [h1, h2, h]

theorem mem_insertByKey (key : Quadtree → ℚ) (c : Quadtree) (l : List Quadtree)
    (a : Quadtree) : a ∈ insertByKey key c l ↔ a ∈ c :: l := by
  induction l with
  | nil => simp [insertByKey]
  | cons d ds ih =>
    simp only [insertByKey]
    split
    · simp only [List.mem_cons] at *
      rw [ih]
      tauto
    · exact Iff.rfl

theorem mem_sortByKey (key : Quadtree → ℚ) (l : List Quadtree) (a : Quadtree) :
    a ∈ sortByKey key l ↔ a ∈ l := by
  induction l with
  | nil => simp [sortByKey]
  | cons c cs ih => simp [sortByKey, mem_insertByKey, ih]

theorem searchChildren_step (x y : ℚ) (l : List Quadtree)
    (hsearch : ∀ c ∈ l, ∀ s, StateStep x y c.getAllPoints s (search x y c s)) :
    ∀ s, StateStep x y (l.flatMap getAllPoints) s (searchChildren x y l s) := by
  induction l with
  | nil =>
    intro s
    rw [searchChildren]
    exact ⟨le_refl _, Or.inl rfl, by simp⟩
  | cons c cs ih =>
    intro s
    rw [searchChildren]
    have h1 := hsearch c (by simp) s
    have h2 := ih (fun d hd s2 => hsearch d (by simp [hd]) s2) (search x y c s)
    have hcomb := StateStep_trans h1 h2
    simpa using hcomb

/-- Main invariant of the `findNearest` search over a well-formed tree:
starting from any state, the search behaves like folding the candidate
update over the subtree's stored points. -/
theorem search_step (x y : ℚ) :
    ∀ (n : ℕ) (t : Quadtree), qsize t ≤ n → wf t →
      ∀ s, StateStep x y t.getAllPoints s (search x y t s) := by
  intro n
  induction n using Nat.strong_induction_on with
  | _ n ih =>
    intro t hsize hwf s
    cases t with
    | leaf b pts =>
      rw [search]
      split
      · exact foldl_updateNearest_step x y pts s
      · rename_i hni
        refine ⟨le_refl _, Or.inl rfl, ?_⟩
        intro q hq
        exact le_distSqTo_of_out b x y s.2 q (hwf q hq) (by simpa using hni)
    | node b pts nw ne sw se =>
      rw [search]
      split
      · obtain ⟨hpts, hsnw, hsne, hssw, hsse, wnw, wne, wsw, wse⟩ := hwf
        have hstep1 := foldl_updateNearest_step x y pts s
        have hsearch : ∀ c ∈ sortByKey (fun child => distToBounds x y child.bounds)
            [nw, ne, sw, se], ∀ s2, StateStep x y c.getAllPoints s2 (search x y c s2) := by
          intro c hc s2
          have hc4 : c = nw ∨ c = ne ∨ c = sw ∨ c = se := by
            simpa using (mem_sortByKey _ _ _).mp hc
          have hqs : qsize c < qsize (node b pts nw ne sw se) := by
            rcases hc4 with rfl | rfl | rfl | rfl <;> simp [qsize] <;> omega
          have hwfc : wf c := by
            rcases hc4 with rfl | rfl | rfl | rfl <;> assumption
          exact ih (qsize c) (by omega) c (le_refl _) hwfc s2
        have hstep2 := searchChildren_step x y _ hsearch (pts.foldl (updateNearest x y) s)
        refine StateStep_congr ?_ (StateStep_trans hstep1 hstep2)
        intro a
        simp only [List.mem_append, List.mem_flatMap, mem_sortByKey, getAllPoints,
          List.mem_cons, List.not_mem_nil, or_false]
        constructor
        · rintro (h | ⟨c, (rfl | rfl | rfl | rfl), hc⟩) <;> tauto
        · rintro (h | h | h | h | h)
          · exact Or.inl h
          · exact Or.inr ⟨nw, by tauto, h⟩
          · exact Or.inr ⟨ne, by tauto, h⟩
          · exact Or.inr ⟨sw, by tauto, h⟩
          · exact Or.inr ⟨se, by tauto, h⟩
      · rename_i hni
        refine ⟨le_refl _, Or.inl rfl, ?_⟩
        intro q hq
        exact le_distSqTo_of_out b x y s.2 q
          (mem_getAllPoints_contains (node b pts nw ne sw se) hwf q hq)
          (by simpa using hni)

end Quadtree

/-- **C10.** `findNearest(x, y, maxDistance)` on a tree built from
points within its root bounds returns an inserted point whose squared
distance to `(x, y)` is strictly below `maxDistance²` (for nonnegative
`maxDistance`, exactly "distance strictly less than `maxDistance`" —
a point at exactly `maxDistance` is never returned) and minimal among
all inserted points; it returns `none` exactly when no inserted point
is strictly within `maxDistance`. -/
theorem C10_findNearest_nearest_strictly_within (b : Bounds) (capacity maxDepth : ℕ)
    (pts : List Point) (hin : ∀ p ∈ pts, b.contains p = true) (x y maxDistance : ℚ) :
    (∀ p : Point,
      Quadtree.findNearest (Quadtree.build b capacity maxDepth pts) x y maxDistance = some p →
      p ∈ pts ∧ Quadtree.distSqTo x y p < maxDistance * maxDistance ∧
      ∀ q ∈ pts, Quadtree.distSqTo x y p ≤ Quadtree.distSqTo x y q) ∧
    (Quadtree.findNearest (Quadtree.build b capacity maxDepth pts) x y maxDistance = none →
      ∀ q ∈ pts, maxDistance * maxDistance ≤ Quadtree.distSqTo x y q) := by
  obtain ⟨-, hwf, hperm⟩ := Quadtree.build_spec b capacity maxDepth pts
  have hall : pts.filter (fun p => b.contains p) = pts :=
    List.filter_eq_self.mpr fun p hp => by simp [hin p hp]
  rw [hall] at hperm
  obtain ⟨hle, hd, hmin⟩ := Quadtree.search_step x y
    (Quadtree.qsize (Quadtree.build b capacity maxDepth pts))
    (Quadtree.build b capacity maxDepth pts) (le_refl _) hwf
    (none, maxDistance * maxDistance)
  constructor
  · intro p hp
    simp only [Quadtree.findNearest] at hp
    rcases hd with heq | ⟨p2, hp2mem, hsome, hdist, hlt⟩
    · rw [heq] at hp
      exact absurd hp (by simp)
    · rw [hsome] at hp
      have hpp : p2 = p := by simpa using hp
      subst hpp
      refine ⟨hperm.mem_iff.mp hp2mem, ?_, ?_⟩
      · rw [← hdist]; exact hlt
      · intro q hq
        rw [← hdist]
        exact hmin q (hperm.mem_iff.mpr hq)
  · intro hnone q hq
    simp only [Quadtree.findNearest] at hnone
    rcases hd with heq | ⟨p2, hp2mem, hsome, hdist, hlt⟩
    · have hm := hmin q (hperm.mem_iff.mpr hq)
      rw [heq] at hm
      exact hm
    · rw [hsome] at hnone
      exact absurd hnone (by simp)

/-- **C4.** For every quadtree built by inserting a list of points that
lie within its root bounds, and every query circle, `queryCircle`
returns exactly the multiset of inserted points within distance
`radius` of the center — the same set a brute-force linear distance
filter over the inserted points returns. -/
theorem C4_queryCircle_matches_bruteforce (b : Bounds) (capacity maxDepth : ℕ)
    (pts : List Point) (hin : ∀ p ∈ pts, b.contains p = true) (cx cy radius : ℚ) :
    (Quadtree.queryCircle (Quadtree.build b capacity maxDepth pts) cx cy radius []).Perm
      (pts.filter (Quadtree.inCircle cx cy radius)) := by
  obtain ⟨-, hwf, hperm⟩ := Quadtree.build_spec b capacity maxDepth pts
  rw [Quadtree.queryCircle_eq_filter cx cy radius _ hwf []]
  rw [List.nil_append]
  have hall : pts.filter (fun p => b.contains p) = pts :=
    List.filter_eq_self.mpr fun p hp => by simp [hin p hp]
  rw [hall] at hperm
  exact hperm.filter _

/-- **C7.** Quadtree invariant: after any sequence of inserts (a build
from a list of points), every point stored at any node lies within that
node's declared bounds (`wf`); and an insert of a point within the root
bounds always stores the point — it returns `true` and grows `size()`
by exactly one; capacity overflow subdivides but never loses a point. -/
theorem C7_quadtree_insert_invariant (b : Bounds) (capacity maxDepth : ℕ)
    (pts : List Point) (p : Point) :
    Quadtree.wf (Quadtree.build b capacity maxDepth pts) ∧
    (b.contains p = true →
      (Quadtree.insert capacity maxDepth 0 (Quadtree.build b capacity maxDepth pts) p).1 = true ∧
      (Quadtree.insert capacity maxDepth 0 (Quadtree.build b capacity maxDepth pts) p).2.size =
        (Quadtree.build b capacity maxDepth pts).size + 1) := by
  obtain ⟨hb, hwf, -⟩ := Quadtree.build_spec b capacity maxDepth pts
  refine ⟨hwf, fun hc => ?_⟩
  have hc2 : (Quadtree.build b capacity maxDepth pts).bounds.contains p = true := by
    rw [hb]; exact hc
  obtain ⟨h1, -, hperm, -⟩ :=
    (Quadtree.insert_spec capacity maxDepth 0 (Quadtree.build b capacity maxDepth pts) p).2 hc2
  refine ⟨h1, ?_⟩
  rw [Quadtree.size_eq_length, Quadtree.size_eq_length, hperm.length_eq]
  rfl

/-- **C9.** Bounds containment is half-open: `x ∈ [x0, x0+w)` and
`y ∈ [y0, y0+h)`; a point exactly on the right or bottom edge of a
node's bounds is rejected by `insert` (returns `false`, tree unchanged)
and hence silently omitted by `fromPoints` (whose size counts exactly
the points the root bounds contain), while a point on the left edge
(within the y-range, positive width) is accepted. -/
theorem C9_bounds_half_open (bo : Bounds) (p : Point) (capacity maxDepth depth : ℕ)
    (t : Quadtree) (pts : List Point) (w h : ℚ) (cap : ℕ) :
    (bo.contains p = true ↔
      (bo.x ≤ p.x ∧ p.x < bo.x + bo.width ∧ bo.y ≤ p.y ∧ p.y < bo.y + bo.height)) ∧
    ((p.x = t.bounds.x + t.bounds.width ∨ p.y = t.bounds.y + t.bounds.height) →
      Quadtree.insert capacity maxDepth depth t p = (false, t)) ∧
    ((p.x = t.bounds.x ∧ p.x < t.bounds.x + t.bounds.width ∧
        t.bounds.y ≤ p.y ∧ p.y < t.bounds.y + t.bounds.height) →
      (Quadtree.insert capacity maxDepth depth t p).1 = true) ∧
    (Quadtree.size (Quadtree.fromPoints pts w h cap) =
      (pts.filter fun q => (Bounds.mk 0 0 w h).contains q).length) := by
  refine ⟨?_, ?_, ?_, ?_⟩
  · simp [Bounds.contains, and_assoc]
  · intro hedge
    refine (Quadtree.insert_spec capacity maxDepth depth t p).1 ?_
    rcases hedge with he | he <;>
      simp [Bounds.contains, he, lt_self_iff_false]
  · intro hin
    refine ((Quadtree.insert_spec capacity maxDepth depth t p).2 ?_).1
    simp only [Bounds.contains, Bool.and_eq_true, decide_eq_true_eq]
    refine ⟨⟨⟨le_of_eq hin.1.symm, hin.2.1⟩, hin.2.2.1⟩, hin.2.2.2⟩
  · obtain ⟨-, -, hperm⟩ := Quadtree.build_spec (Bounds.mk 0 0 w h) cap 8 pts
    rw [show Quadtree.fromPoints pts w h cap = Quadtree.build (Bounds.mk 0 0 w h) cap 8 pts
      from rfl]
    rw [Quadtree.size_eq_length, hperm.length_eq]

/-- Geometry of the margin-2 super triangle: when the bounding box
`[minX, maxX] × [minY, maxY]` has positive extent, each box point lies
strictly inside the triangle built by `createSuperTriangle`. -/
theorem superTriangle_strictly_encloses (minX maxX minY maxY px py : ℚ)
    (h1 : minX ≤ px) (h2 : px ≤ maxX) (h3 : minY ≤ py) (h4 : py ≤ maxY)
    (hpos : 0 < qmax (maxX - minX) (maxY - minY)) :
    StrictlyInside
      ⟨⟨(minX + maxX) / 2 - qmax (maxX - minX) (maxY - minY) * 2 * 2,
        (minY + maxY) / 2 + qmax (maxX - minX) (maxY - minY) * 2⟩,
       ⟨(minX + maxX) / 2 + qmax (maxX - minX) (maxY - minY) * 2 * 2,
        (minY + maxY) / 2 + qmax (maxX - minX) (maxY - minY) * 2⟩,
       ⟨(minX + maxX) / 2,
        (minY + maxY) / 2 - qmax (maxX - minX) (maxY - minY) * 2 * 2⟩⟩
      ⟨px, py⟩ := by
  set m := qmax (maxX - minX) (maxY - minY) with hm
  have hwm : maxX - minX ≤ m := le_qmax_left _ _
  have hhm : maxY - minY ≤ m := le_qmax_right _ _
  apply Or.inr
  refine ⟨?_, ?_, ?_⟩ <;> simp only [crossProd] <;> nlinarith [hpos, hwm, hhm, h1, h2, h3, h4]

/-- **C3, amended.** For every point list whose bounding box has
positive extent (two points differing in some coordinate — excluding
the single-point and all-identical cases, where the returned triangle
degenerates to a point), the triangle returned by
`createSuperTriangle` with the default margin 2 strictly contains
every input point. -/
theorem C3_createSuperTriangle_contains_amended (points : List Point) (t : Triangle)
    (hok : BowyerWatson.createSuperTriangle points 2 = .ok t)
    (hne : ∃ p ∈ points, ∃ q ∈ points, p.x ≠ q.x ∨ p.y ≠ q.y) :
    ∀ p ∈ points, StrictlyInside t p := by
  cases points with
  | nil => exact Except.noConfusion hok
  | cons p0 rest =>
    have hexp : BowyerWatson.createSuperTriangle (p0 :: rest) 2 = .ok
        ⟨⟨((p0 :: rest).foldl (fun acc pp => qmin acc pp.x) p0.x +
            (p0 :: rest).foldl (fun acc pp => qmax acc pp.x) p0.x) / 2 -
            qmax ((p0 :: rest).foldl (fun acc pp => qmax acc pp.x) p0.x -
                 (p0 :: rest).foldl (fun acc pp => qmin acc pp.x) p0.x)
                ((p0 :: rest).foldl (fun acc pp => qmax acc pp.y) p0.y -
                 (p0 :: rest).foldl (fun acc pp => qmin acc pp.y) p0.y) * 2 * 2,
          ((p0 :: rest).foldl (fun acc pp => qmin acc pp.y) p0.y +
            (p0 :: rest).foldl (fun acc pp => qmax acc pp.y) p0.y) / 2 +
            qmax ((p0 :: rest).foldl (fun acc pp => qmax acc pp.x) p0.x -
                 (p0 :: rest).foldl (fun acc pp => qmin acc pp.x) p0.x)
                ((p0 :: rest).foldl (fun acc pp => qmax acc pp.y) p0.y -
                 (p0 :: rest).foldl (fun acc pp => qmin acc pp.y) p0.y) * 2⟩,
         ⟨((p0 :: rest).foldl (fun acc pp => qmin acc pp.x) p0.x +
            (p0 :: rest).foldl (fun acc pp => qmax acc pp.x) p0.x) / 2 +
            qmax ((p0 :: rest).foldl (fun acc pp => qmax acc pp.x) p0.x -
                 (p0 :: rest).foldl (fun acc pp => qmin acc pp.x) p0.x)
                ((p0 :: rest).foldl (fun acc pp => qmax acc pp.y) p0.y -
                 (p0 :: rest).foldl (fun acc pp => qmin acc pp.y) p0.y) * 2 * 2,
          ((p0 :: rest).foldl (fun acc pp => qmin acc pp.y) p0.y +
            (p0 :: rest).foldl (fun acc pp => qmax acc pp.y) p0.y) / 2 +
            qmax ((p0 :: rest).foldl (fun acc pp => qmax acc pp.x) p0.x -
                 (p0 :: rest).foldl (fun acc pp => qmin acc pp.x) p0.x)
                ((p0 :: rest).foldl (fun acc pp => qmax acc pp.y) p0.y -
                 (p0 :: rest).foldl (fun acc pp => qmin acc pp.y) p0.y) * 2⟩,
         ⟨((p0 :: rest).foldl (fun acc pp => qmin acc pp.x) p0.x +
            (p0 :: rest).foldl (fun acc pp => qmax acc pp.x) p0.x) / 2,
          ((p0 :: rest).foldl (fun acc pp => qmin acc pp.y) p0.y +
            (p0 :: rest).foldl (fun acc pp => qmax acc pp.y) p0.y) / 2 -
            qmax ((p0 :: rest).foldl (fun acc pp => qmax acc pp.x) p0.x -
                 (p0 :: rest).foldl (fun acc pp => qmin acc pp.x) p0.x)
                ((p0 :: rest).foldl (fun acc pp => qmax acc pp.y) p0.y -
                 (p0 :: rest).foldl (fun acc pp => qmin acc pp.y) p0.y) * 2 * 2⟩⟩ := rfl
    rw [hexp] at hok
    injection hok with ht
    subst ht
    intro p hp
    obtain ⟨q, hq, r, hr, hqr⟩ := hne
    have hminq := foldl_qmin_le_mem Point.x (p0 :: rest) p0.x q hq
    have hmaxq := mem_le_foldl_qmax Point.x (p0 :: rest) p0.x q hq
    have hminr := foldl_qmin_le_mem Point.x (p0 :: rest) p0.x r hr
    have hmaxr := mem_le_foldl_qmax Point.x (p0 :: rest) p0.x r hr
    have hminqy := foldl_qmin_le_mem Point.y (p0 :: rest) p0.y q hq
    have hmaxqy := mem_le_foldl_qmax Point.y (p0 :: rest) p0.y q hq
    have hminry := foldl_qmin_le_mem Point.y (p0 :: rest) p0.y r hr
    have hmaxry := mem_le_foldl_qmax Point.y (p0 :: rest) p0.y r hr
    have hpx1 := foldl_qmin_le_mem Point.x (p0 :: rest) p0.x p hp
    have hpx2 := mem_le_foldl_qmax Point.x (p0 :: rest) p0.x p hp
    have hpy1 := foldl_qmin_le_mem Point.y (p0 :: rest) p0.y p hp
    have hpy2 := mem_le_foldl_qmax Point.y (p0 :: rest) p0.y p hp
    have hpos :
        0 < qmax
          ((p0 :: rest).foldl (fun acc pp => qmax acc pp.x) p0.x -
            (p0 :: rest).foldl (fun acc pp => qmin acc pp.x) p0.x)
          ((p0 :: rest).foldl (fun acc pp => qmax acc pp.y) p0.y -
            (p0 :: rest).foldl (fun acc pp => qmin acc pp.y) p0.y) := by
      rcases hqr with h | h
      · rcases lt_or_gt_of_ne h with hlt | hlt
        · exact lt_of_lt_of_le (by linarith) (le_qmax_left _ _)
        · exact lt_of_lt_of_le (by linarith) (le_qmax_left _ _)
      · rcases lt_or_gt_of_ne h with hlt | hlt
        · exact lt_of_lt_of_le (by linarith) (le_qmax_right _ _)
        · exact lt_of_lt_of_le (by linarith) (le_qmax_right _ _)
    exact superTriangle_strictly_encloses _ _ _ _ p.x p.y hpx1 hpx2 hpy1 hpy2 hpos

/-- **C2.** For every list of input points and every super triangle, no
triangle in the list returned by `BowyerWatson.triangulate(points,
superTriangle)` has a vertex equal (by exact coordinate equality) to
any vertex of the super triangle. -/
theorem C2_no_super_triangle_vertex_in_result (points : List Point)
    (superTriangle : Triangle) (t : Triangle)
    (ht : t ∈ BowyerWatson.triangulate points superTriangle)
    (v : Point) (hv : v ∈ t.getVertices)
    (w : Point) (hw : w ∈ superTriangle.getVertices) :
    ¬(v.x = w.x ∧ v.y = w.y) := by
  have hshare : ¬(t.sharesVertexWith superTriangle = true) := by
    have h := (List.mem_filter.mp ht).2
    simp at h
    simp [h]
  simp only [Triangle.sharesVertexWith, List.any_eq_true, Point.equals,
    Bool.and_eq_true, decide_eq_true_eq] at hshare
  intro hvw
  exact hshare ⟨v, hv, w, hw, hvw⟩

/-- **C6.** For every triangle with non-collinear vertices and every
point `p`: the computed circumcenter is genuinely equidistant from all
three vertices (so the cached squared circumradius, measured to vertex
`a`, is the circumcircle's); `containsPointInCircumcircle(p)` returns
true iff the squared distance from `p` to the circumcenter is strictly
less than the squared circumradius; and a point exactly on the
circumcircle is not reported as inside. -/
theorem C6_containsPointInCircumcircle_strict (t : Triangle) (p : Point)
    (hnc : NonCollinear t) :
    (t.getCircumcenter.distanceToSquared t.a = t.getCircumcenter.distanceToSquared t.b ∧
     t.getCircumcenter.distanceToSquared t.a = t.getCircumcenter.distanceToSquared t.c) ∧
    (t.containsPointInCircumcircle p = true ↔
      p.distanceToSquared t.getCircumcenter < t.getCircumradiusSquared) ∧
    (p.distanceToSquared t.getCircumcenter = t.getCircumradiusSquared →
      t.containsPointInCircumcircle p = false) := by
  have hd : t.circumDet ≠ 0 := by
    have h2 : t.circumDet = 2 * crossProd t.a t.b t.c := by
      unfold Triangle.circumDet crossProd; ring
    rw [h2]
    intro h
    rcases mul_eq_zero.mp h with h3 | h3
    · norm_num at h3
    · exact hnc h3
  refine ⟨⟨?_, ?_⟩, ?_, ?_⟩
  · unfold Triangle.getCircumcenter Point.distanceToSquared Triangle.circumDet at *
    field_simp
    ring
  · unfold Triangle.getCircumcenter Point.distanceToSquared Triangle.circumDet at *
    field_simp
    ring
  · simp [Triangle.containsPointInCircumcircle]
  · intro heq
    simp [Triangle.containsPointInCircumcircle, heq]

/-- **C5.** `BowyerWatson.createSuperTriangle(points, margin)` raises an
error if and only if the point list is empty; for every non-empty list
it returns a triangle without raising. -/
theorem C5_createSuperTriangle_error_iff_empty (points : List Point) (margin : ℚ) :
    ((∃ e, BowyerWatson.createSuperTriangle points margin = .error e) ↔ points = []) ∧
    ((∃ t, BowyerWatson.createSuperTriangle points margin = .ok t) ↔ points ≠ []) := by
  cases points <;> simp [BowyerWatson.createSuperTriangle]

section ConcreteEvaluations

/- Restore default reducibility of rational arithmetic locally so the
kernel can evaluate the algorithms on the concrete inputs below. -/
attribute [local semireducible] Rat.add Rat.sub Rat.mul Rat.inv Rat.div Rat.neg

/-- **C3, counterexample.** For the single point `(0,0)` (equally, any
all-identical point list) `createSuperTriangle` with the default margin
2 returns the fully degenerate triangle `((0,0),(0,0),(0,0))`, which
does not strictly contain the input point. -/
theorem C3_createSuperTriangle_counterexample :
    BowyerWatson.createSuperTriangle [⟨0, 0⟩] 2 =
      .ok (Triangle.mk ⟨0, 0⟩ ⟨0, 0⟩ ⟨0, 0⟩) ∧
    ¬StrictlyInside (Triangle.mk ⟨0, 0⟩ ⟨0, 0⟩ ⟨0, 0⟩) ⟨0, 0⟩ := by
  refine ⟨rfl, ?_⟩
  decide

/-- Witness for the amended C3: the two points `(0,0)` and `(4,0)`
yield the super triangle `((-14,8),(18,8),(2,-16))`, which strictly
contains `(0,0)`. -/
theorem C3_createSuperTriangle_contains_amended_witness :
    StrictlyInside (Triangle.mk ⟨-14, 8⟩ ⟨18, 8⟩ ⟨2, -16⟩) ⟨0, 0⟩ :=
  C3_createSuperTriangle_contains_amended [⟨0, 0⟩, ⟨4, 0⟩]
    (Triangle.mk ⟨-14, 8⟩ ⟨18, 8⟩ ⟨2, -16⟩) (by rfl) (by decide)
    ⟨0, 0⟩ (by decide)

/-- Witness for C2: the 3-point scenario produces the triangle
`((50,10),(10,10),(30,50))`, whose first vertex differs from the super
triangle's first vertex. -/
theorem C2_no_super_triangle_vertex_in_result_witness :
    ¬((50 : ℚ) = -100 ∧ (10 : ℚ) = 200) :=
  C2_no_super_triangle_vertex_in_result
    [⟨10, 10⟩, ⟨50, 10⟩, ⟨30, 50⟩]
    (Triangle.mk ⟨-100, 200⟩ ⟨200, 200⟩ ⟨50, -200⟩)
    (Triangle.mk ⟨50, 10⟩ ⟨10, 10⟩ ⟨30, 50⟩) (by decide)
    ⟨50, 10⟩ (by decide)
    ⟨-100, 200⟩ (by decide)

/-- Witness for C6: the right triangle `((0,0),(2,0),(0,2))` has
circumcenter `(1,1)` and squared circumradius 2; the point `(2,2)` lies
exactly on the circumcircle and is not reported inside. -/
theorem C6_containsPointInCircumcircle_strict_witness :
    (((Triangle.mk ⟨0, 0⟩ ⟨2, 0⟩ ⟨0, 2⟩).getCircumcenter.distanceToSquared ⟨0, 0⟩ =
        (Triangle.mk ⟨0, 0⟩ ⟨2, 0⟩ ⟨0, 2⟩).getCircumcenter.distanceToSquared ⟨2, 0⟩ ∧
      (Triangle.mk ⟨0, 0⟩ ⟨2, 0⟩ ⟨0, 2⟩).getCircumcenter.distanceToSquared ⟨0, 0⟩ =
        (Triangle.mk ⟨0, 0⟩ ⟨2, 0⟩ ⟨0, 2⟩).getCircumcenter.distanceToSquared ⟨0, 2⟩) ∧
    ((Triangle.mk ⟨0, 0⟩ ⟨2, 0⟩ ⟨0, 2⟩).containsPointInCircumcircle ⟨2, 2⟩ = true ↔
      Point.distanceToSquared ⟨2, 2⟩ (Triangle.mk ⟨0, 0⟩ ⟨2, 0⟩ ⟨0, 2⟩).getCircumcenter <
        (Triangle.mk ⟨0, 0⟩ ⟨2, 0⟩ ⟨0, 2⟩).getCircumradiusSquared) ∧
    (Point.distanceToSquared ⟨2, 2⟩ (Triangle.mk ⟨0, 0⟩ ⟨2, 0⟩ ⟨0, 2⟩).getCircumcenter =
        (Triangle.mk ⟨0, 0⟩ ⟨2, 0⟩ ⟨0, 2⟩).getCircumradiusSquared →
      (Triangle.mk ⟨0, 0⟩ ⟨2, 0⟩ ⟨0, 2⟩).containsPointInCircumcircle ⟨2, 2⟩ = false)) :=
  C6_containsPointInCircumcircle_strict (Triangle.mk ⟨0, 0⟩ ⟨2, 0⟩ ⟨0, 2⟩) ⟨2, 2⟩
    (by decide)

/-- **C8, counterexample.** In the first concrete scenario the single
returned triangle has area 800, not 1000 as claimed: the triangle
`(10,10),(50,10),(30,50)` has base 40 and height 40. -/
theorem C8_concrete_scenarios_counterexample :
    (BowyerWatson.triangulate [⟨10, 10⟩, ⟨50, 10⟩, ⟨30, 50⟩]
        (Triangle.mk ⟨-100, 200⟩ ⟨200, 200⟩ ⟨50, -200⟩)).length = 1 ∧
    ¬(((BowyerWatson.triangulate [⟨10, 10⟩, ⟨50, 10⟩, ⟨30, 50⟩]
        (Triangle.mk ⟨-100, 200⟩ ⟨200, 200⟩ ⟨50, -200⟩)).map Triangle.getArea).sum = 1000) := by
  decide

/-- **C8, amended.** With the super triangle
`((-100,200),(200,200),(50,-200))`: the 3 points `(10,10),(50,10),(30,50)`
produce exactly 1 triangle of area 800, and the 4 corners of the square
`(0,0),(10,0),(10,10),(0,10)` produce exactly 2 triangles of combined
area 100. -/
theorem C8_concrete_scenarios_amended :
    (BowyerWatson.triangulate [⟨10, 10⟩, ⟨50, 10⟩, ⟨30, 50⟩]
        (Triangle.mk ⟨-100, 200⟩ ⟨200, 200⟩ ⟨50, -200⟩)).length = 1 ∧
    ((BowyerWatson.triangulate [⟨10, 10⟩, ⟨50, 10⟩, ⟨30, 50⟩]
        (Triangle.mk ⟨-100, 200⟩ ⟨200, 200⟩ ⟨50, -200⟩)).map Triangle.getArea).sum = 800 ∧
    (BowyerWatson.triangulate [⟨0, 0⟩, ⟨10, 0⟩, ⟨10, 10⟩, ⟨0, 10⟩]
        (Triangle.mk ⟨-100, 200⟩ ⟨200, 200⟩ ⟨50, -200⟩)).length = 2 ∧
    ((BowyerWatson.triangulate [⟨0, 0⟩, ⟨10, 0⟩, ⟨10, 10⟩, ⟨0, 10⟩]
        (Triangle.mk ⟨-100, 200⟩ ⟨200, 200⟩ ⟨50, -200⟩)).map Triangle.getArea).sum = 100 := by
  decide

/-- Witness for C4: querying the circle of radius 2 around the origin
on a tree over `(1,1),(5,5),(9,9)` returns exactly `(1,1)`. -/
theorem C4_queryCircle_matches_bruteforce_witness :
    (Quadtree.queryCircle (Quadtree.build ⟨0, 0, 10, 10⟩ 4 8 [⟨1, 1⟩, ⟨5, 5⟩, ⟨9, 9⟩])
      0 0 2 []).Perm [⟨1, 1⟩] :=
  C4_queryCircle_matches_bruteforce ⟨0, 0, 10, 10⟩ 4 8 [⟨1, 1⟩, ⟨5, 5⟩, ⟨9, 9⟩]
    (by decide) 0 0 2

/-- Witness for C7: with capacity 1 and max depth 2, inserting a third
point forces subdivision and still grows the size by one. -/
theorem C7_quadtree_insert_invariant_witness :
    (Quadtree.insert 1 2 0 (Quadtree.build ⟨0, 0, 8, 8⟩ 1 2 [⟨1, 1⟩, ⟨2, 2⟩]) ⟨3, 3⟩).1 = true ∧
    (Quadtree.insert 1 2 0 (Quadtree.build ⟨0, 0, 8, 8⟩ 1 2 [⟨1, 1⟩, ⟨2, 2⟩]) ⟨3, 3⟩).2.size =
      (Quadtree.build ⟨0, 0, 8, 8⟩ 1 2 [⟨1, 1⟩, ⟨2, 2⟩]).size + 1 :=
  (C7_quadtree_insert_invariant ⟨0, 0, 8, 8⟩ 1 2 [⟨1, 1⟩, ⟨2, 2⟩] ⟨3, 3⟩).2 (by decide)

/-- Witness for C9: `(10,5)` sits on the right edge of `(0,0,10,10)`
and is rejected (and omitted by `fromPoints`), while `(0,5)` on the
left edge is accepted. -/
theorem C9_bounds_half_open_witness :
    Quadtree.insert 4 8 0 (Quadtree.leaf ⟨0, 0, 10, 10⟩ []) ⟨10, 5⟩ =
      (false, Quadtree.leaf ⟨0, 0, 10, 10⟩ []) ∧
    (Quadtree.insert 4 8 0 (Quadtree.leaf ⟨0, 0, 10, 10⟩ []) ⟨0, 5⟩).1 = true ∧
    Quadtree.size (Quadtree.fromPoints [⟨10, 5⟩, ⟨0, 5⟩] 10 10 4) = 1 :=
  ⟨(C9_bounds_half_open ⟨0, 0, 10, 10⟩ ⟨10, 5⟩ 4 8 0 (Quadtree.leaf ⟨0, 0, 10, 10⟩ [])
      [] 0 0 0).2.1 (Or.inl (by decide)),
   (C9_bounds_half_open ⟨0, 0, 10, 10⟩ ⟨0, 5⟩ 4 8 0 (Quadtree.leaf ⟨0, 0, 10, 10⟩ [])
      [] 0 0 0).2.2.1 (by decide),
   (C9_bounds_half_open ⟨0, 0, 10, 10⟩ ⟨0, 0⟩ 0 0 0 (Quadtree.leaf ⟨0, 0, 10, 10⟩ [])
      [⟨10, 5⟩, ⟨0, 5⟩] 10 10 4).2.2.2⟩

/-- Witness for C10: on the single stored point `(1,1)`, `findNearest`
from the origin with max distance 3 returns `(1,1)`, which is an
inserted point strictly within the squared max distance. -/
theorem C10_findNearest_nearest_strictly_within_witness :
    (⟨1, 1⟩ : Point) ∈ [(⟨1, 1⟩ : Point)] ∧
    Quadtree.distSqTo 0 0 ⟨1, 1⟩ < 3 * 3 := by
  have hb : Quadtree.build ⟨0, 0, 10, 10⟩ 4 8 [⟨1, 1⟩]
      = Quadtree.leaf ⟨0, 0, 10, 10⟩ [⟨1, 1⟩] := by
    simp only [Quadtree.build, List.foldl_cons, List.foldl_nil]
    rw [Quadtree.insert]
    norm_num [Bounds.contains]
  have hsome : Quadtree.findNearest (Quadtree.build ⟨0, 0, 10, 10⟩ 4 8 [⟨1, 1⟩])
      0 0 3 = some ⟨1, 1⟩ := by
    rw [hb, Quadtree.findNearest, Quadtree.search]
    norm_num [Bounds.intersectsCircleSq, Bounds.closestDistSquared, qmax, qmin,
      Quadtree.updateNearest, Quadtree.distSqTo]
  have h := (C10_findNearest_nearest_strictly_within ⟨0, 0, 10, 10⟩ 4 8 [⟨1, 1⟩]
    (by decide) 0 0 3).1 ⟨1, 1⟩ hsome
  exact ⟨h.1, h.2.1⟩

end ConcreteEvaluations

end Delaunay
